import Mathlib

/-!
Verification of the libssh `misc.c` excerpt: the intrusive singly-linked
list (`ssh_list_*` / `ssh_iterator`), the path decomposition helpers
(`ssh_dirname`, `ssh_basename`) and the byte-order helper `ntohll`.

The list is embedded with an explicit heap: node addresses are natural
numbers, the heap maps an address to the node stored there (`none` for
unallocated / freed), and a fresh-address counter models `malloc`
returning a previously unused address.  Stored element pointers
(`const void *data`) are modelled as `Option Nat` (`none` is the NULL
pointer).  Allocation failure of `malloc` is modelled by an explicit
`allocOk` oracle argument.
-/

namespace Libssh

/-- `struct ssh_iterator`: a chain node holding the `next` link and the
borrowed `data` pointer (`none` models a NULL data pointer). -/
structure SshIterator where
  next : Option Nat
  data : Option Nat
deriving DecidableEq

/-- The node heap: which node, if any, lives at each address. -/
abbrev Heap := Nat → Option SshIterator

/-- The allocator state: the heap together with the next fresh address. -/
structure Mem where
  heap : Heap
  fresh : Nat

/-- `struct ssh_list`: the head (`root`) and tail (`end`) anchors. -/
structure SshList where
  root : Option Nat
  end_ : Option Nat
deriving DecidableEq

/-- Write the `next` field of the node at address `a` (`prev->next = x`). -/
def Heap.setNext (h : Heap) (a : Nat) (nx : Option Nat) : Heap :=
  fun x => if x = a then (h a).map (fun nd => ⟨nx, nd.data⟩) else h x

/-- Install a freshly allocated node at address `a`. -/
def Heap.alloc (h : Heap) (a : Nat) (nd : SshIterator) : Heap :=
  fun x => if x = a then some nd else h x

/-- `SAFE_FREE`: deallocate the node at address `a`. -/
def Heap.free (h : Heap) (a : Nat) : Heap :=
  fun x => if x = a then none else h x

/-- Dereference `a->next` (meaningless `none` on a dangling address;
never reached on well-formed states). -/
def nextOf (h : Heap) (a : Nat) : Option Nat :=
  match h a with
  | some nd => nd.next
  | none => none

/-- Dereference `a->data` (meaningless `none` on a dangling address). -/
def dataOf (h : Heap) (a : Nat) : Option Nat :=
  match h a with
  | some nd => nd.data
  | none => none

def SSH_OK : Int := 0
def SSH_ERROR : Int := -1

/-- `ssh_list_new` (the returned empty list; `root = end = NULL`). -/
def ssh_list_new : SshList := ⟨none, none⟩

/-- `ssh_list_get_iterator`: returns `list->root` without mutation. -/
def ssh_list_get_iterator (l : SshList) : Option Nat := l.root

/-- `ssh_iterator_new` in the successful case: allocate a node with
`next = NULL` and the given data at the fresh address. -/
def ssh_iterator_new (m : Mem) (data : Option Nat) : Nat × Mem :=
  (m.fresh, ⟨m.heap.alloc m.fresh ⟨none, data⟩, m.fresh + 1⟩)

/-- `ssh_list_add`.  `allocOk` tells whether the node allocation inside
`ssh_iterator_new` succeeds; on failure the function returns `SSH_ERROR`
with the state untouched.  On success, an empty list (`!list->end`) gets
`root = end = iterator`, otherwise the node is linked after `end`. -/
def ssh_list_add (m : Mem) (l : SshList) (data : Option Nat) (allocOk : Bool) :
    Int × SshList × Mem :=
  if allocOk then
    let im := ssh_iterator_new m data
    match l.end_ with
    | none => (SSH_OK, ⟨some im.1, some im.1⟩, im.2)
    | some e => (SSH_OK, ⟨l.root, some im.1⟩, ⟨im.2.heap.setNext e (some im.1), im.2.fresh⟩)
  else (SSH_ERROR, l, m)

/-- The scanning loop of `ssh_list_remove`:
`while (ptr && ptr != iterator) { prev = ptr; ptr = ptr->next; }`.
Returns `some prev` when the target is found, `none` when the walk hits
NULL (or the fuel, which cannot happen on well-formed states). -/
def sshListScan (h : Heap) (target : Nat) : Nat → Option Nat → Option Nat → Option (Option Nat)
  | 0, _, _ => none
  | _ + 1, _, none => none
  | fuel + 1, prev, some p =>
      if p = target then some prev
      else sshListScan h target fuel (some p) (nextOf h p)

/-- `ssh_list_remove`: scan for the iterator; if absent, a silent no-op;
otherwise unlink it (`prev->next = ptr->next`, head/tail fix-up) and
free the node. -/
def ssh_list_remove (m : Mem) (l : SshList) (target : Nat) : SshList × Mem :=
  match sshListScan m.heap target (m.fresh + 1) none l.root with
  | none => (l, m)
  | some prev =>
      let ptrNext := nextOf m.heap target
      let h1 := match prev with
        | none => m.heap
        | some pv => m.heap.setNext pv ptrNext
      let root' := if l.root = some target then ptrNext else l.root
      let end' := if l.end_ = some target then prev else l.end_
      (⟨root', end'⟩, ⟨h1.free target, m.fresh⟩)

/-- `_ssh_list_get_head`: pop the head node, returning its data
(NULL both for an empty list and for a stored NULL data pointer). -/
def _ssh_list_get_head (m : Mem) (l : SshList) : Option Nat × SshList × Mem :=
  match l.root with
  | none => (none, l, m)
  | some a =>
      let d := dataOf m.heap a
      let root' := nextOf m.heap a
      let end' := if l.end_ = some a then none else l.end_
      (d, ⟨root', end'⟩, ⟨m.heap.free a, m.fresh⟩)

/-- A traversal following `next` links from a cursor, collecting the
`data` of each node, with explicit fuel. -/
def traverseData (h : Heap) : Nat → Option Nat → List (Option Nat)
  | 0, _ => []
  | _ + 1, none => []
  | fuel + 1, some a =>
      match h a with
      | none => []
      | some nd => nd.data :: traverseData h fuel nd.next

/-- A sequence of successful `ssh_list_add` calls. -/
def addAll (m : Mem) (l : SshList) : List (Option Nat) → SshList × Mem
  | [] => (l, m)
  | d :: ds =>
      let r := ssh_list_add m l d true
      addAll r.2.2 r.2.1 ds

/-- The chain from a cursor consists exactly of the given addresses,
each allocated, linked in order, with the last node's `next` NULL. -/
inductive IsChain (h : Heap) : Option Nat → List Nat → Prop
  | nil : IsChain h none []
  | cons {a : Nat} {nd : SshIterator} {rest : List Nat} :
      h a = some nd → IsChain h nd.next rest → IsChain h (some a) (a :: rest)

/-- The list invariant: the chain from `root` is a duplicate-free
address list ending exactly at `end`, and every chain address is below
the allocator's fresh counter. -/
structure Wf (m : Mem) (l : SshList) (addrs : List Nat) : Prop where
  chain : IsChain m.heap l.root addrs
  nodup : addrs.Nodup
  tail_eq : l.end_ = addrs.getLast?
  bound : ∀ a ∈ addrs, a < m.fresh

/-- The list invariant with the chain existentially quantified. -/
def Invariant (m : Mem) (l : SshList) : Prop := ∃ addrs, Wf m l addrs

/-! ## Path decomposition (`ssh_dirname`, `ssh_basename`)

Paths are `List Char`; the `Option` input models a possibly-NULL
`const char *`.  The C index loops
`while (len > 0 && pred(path[len-1])) --len;` are `skipWhileRev`. -/

/-- One backwards scanning loop over `path[0..len)`:
`while (len > 0 && pred (path[len-1])) --len;` returning the final `len`. -/
def skipWhileRev (p : List Char) (pred : Char → Bool) : Nat → Nat
  | 0 => 0
  | len + 1 => if pred (p.getD len ' ') then skipWhileRev p pred len else len + 1

/-- `ssh_dirname` (allocation assumed to succeed). -/
def ssh_dirname (path : Option (List Char)) : List Char :=
  match path with
  | none => ['.']
  | some p =>
      if p = [] then ['.']
      else
        let len1 := skipWhileRev p (fun c => c = '/') p.length
        if len1 = 0 then ['/']
        else
          let len2 := skipWhileRev p (fun c => c ≠ '/') len1
          if len2 = 0 then ['.']
          else if len2 = 1 then ['/']
          else
            let len3 := skipWhileRev p (fun c => c = '/') len2
            p.take len3

/-- `ssh_basename` (allocation assumed to succeed).  Note the
`len == 0` branch after the second loop returns `strdup(path)`, the
original string. -/
def ssh_basename (path : Option (List Char)) : List Char :=
  match path with
  | none => ['.']
  | some p =>
      if p = [] then ['.']
      else
        let len1 := skipWhileRev p (fun c => c = '/') p.length
        if len1 = 0 then ['/']
        else
          let len2 := skipWhileRev p (fun c => c ≠ '/') len1
          if len2 > 0 then
            let s := p.drop len2
            let len4 := skipWhileRev s (fun c => c = '/') s.length
            s.take len4
          else p

/-! ## Byte order (`ntohll`)

64-bit values are `Nat` taken modulo `2 ^ 64`; the masks and shifts of
the source are the corresponding `%`, `/` and `*` by powers of two. -/

/-- Models the C library function `ntohl` on a little-endian host: the
four bytes of a 32-bit value in reverse order.  The byte fields occupy
disjoint bit ranges, so the bitwise-or of the source is addition. -/
def ntohl (x : Nat) : Nat :=
  x % 256 * 2 ^ 24 + x / 2 ^ 8 % 256 * 2 ^ 16 + x / 2 ^ 16 % 256 * 2 ^ 8 + x / 2 ^ 24 % 256

/-- `ntohll`, non-`WORDS_BIGENDIAN` branch:
`low = a & 0xffffffff; high = a >> 32;` both passed through `ntohl`,
recombined as `(low' << 32) | high'` (a disjoint or, hence addition,
since `ntohl` of a 32-bit value is below `2 ^ 32`). -/
def ntohll (a : Nat) : Nat :=
  let low := a % 2 ^ 32
  let high := a / 2 ^ 32 % 2 ^ 32
  ntohl low * 2 ^ 32 + ntohl high

/-! ## Heap lemmas -/

theorem Heap.alloc_self (h : Heap) (a : Nat) (nd : SshIterator) :
    h.alloc a nd a = some nd := by
  simp [Heap.alloc]

theorem Heap.alloc_ne (h : Heap) {a x : Nat} (nd : SshIterator) (hx : x ≠ a) :
    h.alloc a nd x = h x := by
  simp [Heap.alloc, hx]

theorem Heap.setNext_self (h : Heap) (a : Nat) (nx : Option Nat) :
    h.setNext a nx a = (h a).map (fun nd => ⟨nx, nd.data⟩) := by
  simp [Heap.setNext]

theorem Heap.setNext_ne (h : Heap) {a x : Nat} (nx : Option Nat) (hx : x ≠ a) :
    h.setNext a nx x = h x := by
  simp [Heap.setNext, hx]

theorem Heap.free_ne (h : Heap) {a x : Nat} (hx : x ≠ a) :
    h.free a x = h x := by
  simp [Heap.free, hx]

theorem dataOf_congr {h h' : Heap} {x : Nat} (hx : h' x = h x) :
    dataOf h' x = dataOf h x := by
  unfold dataOf
  rw [hx]

theorem dataOf_setNext (h : Heap) (a : Nat) (nx : Option Nat) (x : Nat) :
    dataOf (h.setNext a nx) x = dataOf h x := by
  unfold dataOf Heap.setNext
  by_cases hx : x = a
  · subst hx
    cases h x <;> simp
  · simp [hx]

theorem nextOf_eq {h : Heap} {a : Nat} {nd : SshIterator} (hha : h a = some nd) :
    nextOf h a = nd.next := by
  unfold nextOf
  rw [hha]

/-! ## Chain lemmas -/

theorem chain_nil_inv {h : Heap} {p : Option Nat} (hc : IsChain h p []) : p = none := by
  cases hc
  rfl

theorem chain_cons_inv {h : Heap} {p : Option Nat} {a : Nat} {rest : List Nat}
    (hc : IsChain h p (a :: rest)) :
    p = some a ∧ ∃ nd, h a = some nd ∧ IsChain h nd.next rest := by
  cases hc with
  | cons hha hrest => exact ⟨rfl, _, hha, hrest⟩

theorem chain_frame {h h' : Heap} {addrs : List Nat} :
    ∀ {p : Option Nat}, IsChain h p addrs → (∀ a ∈ addrs, h' a = h a) →
      IsChain h' p addrs := by
  induction addrs with
  | nil =>
    intro p hc _
    rw [chain_nil_inv hc]
    exact .nil
  | cons a rest ih =>
    intro p hc hag
    obtain ⟨rfl, nd, hha, hrest⟩ := chain_cons_inv hc
    exact .cons ((hag a (by simp)).trans hha)
      (ih hrest (fun b hb => hag b (by simp [hb])))

theorem traverse_of_chain {h : Heap} {addrs : List Nat} :
    ∀ {p : Option Nat} {fuel : Nat}, IsChain h p addrs → addrs.length ≤ fuel →
      traverseData h fuel p = addrs.map (dataOf h) := by
  induction addrs with
  | nil =>
    intro p fuel hc _
    rw [chain_nil_inv hc]
    cases fuel <;> simp [traverseData]
  | cons a rest ih =>
    intro p fuel hc hlen
    obtain ⟨rfl, nd, hha, hrest⟩ := chain_cons_inv hc
    cases fuel with
    | zero => simp at hlen
    | succ f =>
      simp only [traverseData, hha, List.map_cons]
      rw [ih hrest (by simpa using hlen)]
      simp [dataOf, hha]

/-! ## `ssh_list_add` preserves the invariant -/

theorem wf_empty (m : Mem) : Wf m ssh_list_new [] :=
  ⟨.nil, List.nodup_nil, rfl, by simp⟩

theorem chain_snoc {h : Heap} {e f : Nat} {d : Option Nat} {addrs : List Nat} :
    ∀ {p : Option Nat}, IsChain h p addrs → addrs.getLast? = some e →
      addrs.Nodup → f ∉ addrs →
      IsChain ((h.alloc f ⟨none, d⟩).setNext e (some f)) p (addrs ++ [f]) := by
  induction addrs with
  | nil =>
    intro p _ hl
    simp at hl
  | cons a rest ih =>
    intro p hc hl hnd hf
    obtain ⟨rfl, nd, hha, hrest⟩ := chain_cons_inv hc
    have hfa : f ≠ a := fun heq => hf (by simp [heq])
    cases rest with
    | nil =>
      have hae : a = e := by simpa using hl
      subst hae
      have hnode : ((h.alloc f ⟨none, d⟩).setNext a (some f)) a =
          some ⟨some f, nd.data⟩ := by
        rw [Heap.setNext_self, Heap.alloc_ne _ _ hfa.symm, hha]
        rfl
      have hnode2 : ((h.alloc f ⟨none, d⟩).setNext a (some f)) f =
          some ⟨none, d⟩ := by
        rw [Heap.setNext_ne _ _ hfa, Heap.alloc_self]
      exact .cons hnode (.cons hnode2 .nil)
    | cons b rest' =>
      have hl' : (b :: rest').getLast? = some e := by
        rwa [List.getLast?_cons_cons] at hl
      have hnd' : (b :: rest').Nodup := hnd.of_cons
      have hf' : f ∉ b :: rest' := fun hmem => hf (by simp [hmem])
      have ha_not : a ∉ b :: rest' := (List.nodup_cons.mp hnd).1
      have hae : a ≠ e := fun heq =>
        ha_not (heq ▸ List.mem_of_mem_getLast? (Option.mem_def.mpr hl'))
      exact .cons ((Heap.setNext_ne _ _ hae).trans
        ((Heap.alloc_ne _ _ hfa.symm).trans hha)) (ih hrest hl' hnd' hf')

theorem add_wf {m : Mem} {l : SshList} {addrs : List Nat} (hw : Wf m l addrs)
    (d : Option Nat) :
    (ssh_list_add m l d true).1 = SSH_OK ∧
    Wf (ssh_list_add m l d true).2.2 (ssh_list_add m l d true).2.1 (addrs ++ [m.fresh]) ∧
    (∀ a ∈ addrs, dataOf (ssh_list_add m l d true).2.2.heap a = dataOf m.heap a) ∧
    dataOf (ssh_list_add m l d true).2.2.heap m.fresh = d ∧
    (ssh_list_add m l d true).2.1.root = (if addrs = [] then some m.fresh else l.root) ∧
    (ssh_list_add m l d true).2.1.end_ = some m.fresh ∧
    (ssh_list_add m l d true).2.2.fresh = m.fresh + 1 ∧
    nextOf (ssh_list_add m l d true).2.2.heap m.fresh = none := by
  have hfnot : m.fresh ∉ addrs := by
    intro hmem
    exact absurd (hw.bound _ hmem) (lt_irrefl _)
  cases hend : l.end_ with
  | none =>
    have hnil : addrs = [] := List.getLast?_eq_none_iff.mp (hend ▸ hw.tail_eq).symm
    subst hnil
    have hadd : ssh_list_add m l d true =
        (SSH_OK, ⟨some m.fresh, some m.fresh⟩,
          ⟨m.heap.alloc m.fresh ⟨none, d⟩, m.fresh + 1⟩) := by
      simp [ssh_list_add, ssh_iterator_new, hend]
    rw [hadd]
    dsimp only
    refine ⟨rfl, ?_, ?_, ?_, ?_, ?_, ?_, ?_⟩
    · refine ⟨?_, by simp, by simp, ?_⟩
      · exact .cons (Heap.alloc_self _ _ _) .nil
      · intro a ha
        show a < m.fresh + 1
        simp at ha
        omega
    · intro a ha
      simp at ha
    · unfold dataOf
      rw [Heap.alloc_self]
    · simp
    · rfl
    · rfl
    · rw [nextOf_eq (Heap.alloc_self _ _ _)]
  | some e =>
    have hne : addrs ≠ [] := by
      intro hnil
      rw [hnil] at hw
      have := hend ▸ hw.tail_eq
      simp at this
    have hadd : ssh_list_add m l d true =
        (SSH_OK, ⟨l.root, some m.fresh⟩,
          ⟨(m.heap.alloc m.fresh ⟨none, d⟩).setNext e (some m.fresh), m.fresh + 1⟩) := by
      simp [ssh_list_add, ssh_iterator_new, hend]
    rw [hadd]
    dsimp only
    have hfe : m.fresh ≠ e := by
      have he_mem : e ∈ addrs :=
        List.mem_of_mem_getLast? (Option.mem_def.mpr (hend ▸ hw.tail_eq).symm)
      have := hw.bound e he_mem
      omega
    refine ⟨rfl, ?_, ?_, ?_, ?_, ?_, ?_, ?_⟩
    · refine ⟨?_, ?_, ?_, ?_⟩
      · exact chain_snoc hw.chain (hend ▸ hw.tail_eq).symm hw.nodup hfnot
      · simp [List.nodup_append, hw.nodup, hfnot]
      · simp
      · intro a ha
        show a < m.fresh + 1
        rcases List.mem_append.mp ha with ha | ha
        · have := hw.bound a ha
          omega
        · simp at ha
          omega
    · intro a ha
      have haf : a ≠ m.fresh := fun heq => hfnot (heq ▸ ha)
      rw [dataOf_setNext]
      exact dataOf_congr (Heap.alloc_ne _ _ haf)
    · rw [dataOf_setNext]
      unfold dataOf
      rw [Heap.alloc_self]
    · simp [hne]
    · rfl
    · rfl
    · have : ((m.heap.alloc m.fresh ⟨none, d⟩).setNext e (some m.fresh)) m.fresh =
          some ⟨none, d⟩ := by
        rw [Heap.setNext_ne _ _ hfe, Heap.alloc_self]
      rw [nextOf_eq this]

/-! ## `ssh_list_remove`: the scan, the unlink, and the invariant -/

theorem length_le_fresh {addrs : List Nat} {n : Nat} (hnd : addrs.Nodup)
    (hb : ∀ a ∈ addrs, a < n) : addrs.length ≤ n := by
  have hsub : addrs ⊆ List.range n := fun a ha => List.mem_range.mpr (hb a ha)
  simpa using (hnd.subperm hsub).length_le

theorem scan_not_mem {h : Heap} {t : Nat} {addrs : List Nat} :
    ∀ {p : Option Nat} {fuel : Nat} {prev : Option Nat}, IsChain h p addrs →
      t ∉ addrs → addrs.length < fuel → sshListScan h t fuel prev p = none := by
  induction addrs with
  | nil =>
    intro p fuel prev hc _ hlen
    rw [chain_nil_inv hc]
    cases fuel with
    | zero => simp at hlen
    | succ f => rfl
  | cons a rest ih =>
    intro p fuel prev hc ht hlen
    obtain ⟨rfl, nd, hha, hrest⟩ := chain_cons_inv hc
    cases fuel with
    | zero => simp at hlen
    | succ f =>
      have hat : a ≠ t := fun heq => ht (by simp [heq])
      simp only [sshListScan, if_neg hat]
      rw [nextOf_eq hha]
      exact ih hrest (fun hm => ht (by simp [hm])) (by simpa using hlen)

theorem scan_mem {h : Heap} {t : Nat} {post : List Nat} :
    ∀ {pre : List Nat} {p : Option Nat} {fuel : Nat} {prev : Option Nat},
      IsChain h p (pre ++ t :: post) → t ∉ pre → pre.length < fuel →
      sshListScan h t fuel prev p =
        some (match pre.getLast? with | none => prev | some x => some x) := by
  intro pre
  induction pre with
  | nil =>
    intro p fuel prev hc _ hlen
    obtain ⟨rfl, nd, hha, hrest⟩ := chain_cons_inv (show IsChain h p (t :: post) by simpa using hc)
    cases fuel with
    | zero => simp at hlen
    | succ f => simp [sshListScan]
  | cons a pre' ih =>
    intro p fuel prev hc ht hlen
    rw [List.cons_append] at hc
    obtain ⟨rfl, nd, hha, hrest⟩ := chain_cons_inv hc
    cases fuel with
    | zero => simp at hlen
    | succ f =>
      have hat : a ≠ t := fun heq => ht (by simp [heq])
      simp only [sshListScan, if_neg hat]
      rw [nextOf_eq hha]
      rw [ih hrest (fun hm => ht (by simp [hm])) (by simpa using hlen)]
      cases hpre' : pre' with
      | nil => simp
      | cons b rest' =>
        have hbs : (b :: rest').getLast?.isSome := List.getLast?_isSome.mpr (by simp)
        obtain ⟨x, hx⟩ := Option.isSome_iff_exists.mp hbs
        rw [hx, List.getLast?_cons_cons, hx]

theorem chain_unlink {h : Heap} {t : Nat} {post : List Nat} :
    ∀ {pre : List Nat} {p : Option Nat},
      IsChain h p (pre ++ t :: post) → (pre ++ t :: post).Nodup →
      IsChain
        ((match pre.getLast? with
          | none => h
          | some pv => h.setNext pv (nextOf h t)).free t)
        (if pre = [] then nextOf h t else p)
        (pre ++ post) := by
  intro pre
  induction pre with
  | nil =>
    intro p hc hnd
    obtain ⟨rfl, nd, hha, hrest⟩ := chain_cons_inv (show IsChain h p (t :: post) by simpa using hc)
    have htpost : t ∉ post := (List.nodup_cons.mp (by simpa using hnd)).1
    simp only [List.getLast?_nil, if_pos rfl, List.nil_append]
    rw [nextOf_eq hha]
    refine chain_frame hrest ?_
    intro b hb
    exact Heap.free_ne _ (fun heq => htpost (heq ▸ hb))
  | cons a pre' ih =>
    intro p hc hnd
    rw [List.cons_append] at hc
    obtain ⟨rfl, nd, hha, hrest⟩ := chain_cons_inv hc
    have hnd' : (pre' ++ t :: post).Nodup := hnd.of_cons
    have hanot : a ∉ pre' ++ t :: post := (List.nodup_cons.mp hnd).1
    have hat : a ≠ t := fun heq => hanot (by simp [heq])
    cases hpre' : pre' with
    | nil =>
      subst hpre'
      obtain ⟨hnx, ndt, hht, hpost⟩ := chain_cons_inv (show IsChain h nd.next (t :: post) by simpa using hrest)
      have htpost : t ∉ post := by
        have := List.nodup_cons.mp (by simpa using hnd')
        exact this.1
      simp only [List.getLast?_singleton, if_neg (by simp : ¬(([a] : List Nat) = [])),
        List.cons_append, List.nil_append]
      have hnode : ((h.setNext a (nextOf h t)).free t) a =
          some ⟨nextOf h t, nd.data⟩ := by
        rw [Heap.free_ne _ hat, Heap.setNext_self, hha]
        rfl
      refine .cons hnode ?_
      · show IsChain _ (nextOf h t) post
        rw [nextOf_eq hht]
        refine chain_frame hpost ?_
        intro b hb
        have hbt : b ≠ t := fun heq => htpost (heq ▸ hb)
        have hba : b ≠ a := fun heq => hanot (by simp [heq ▸ hb])
        rw [Heap.free_ne _ hbt, Heap.setNext_ne _ _ hba]
    | cons b rest' =>
      have hpne : pre' ≠ [] := by simp [hpre']
      have hih := ih hrest hnd'
      rw [if_neg hpne] at hih
      obtain ⟨pv, hpv⟩ := Option.isSome_iff_exists.mp
        (List.getLast?_isSome.mpr hpne : pre'.getLast?.isSome)
      have hpv_mem : pv ∈ pre' := List.mem_of_mem_getLast? (Option.mem_def.mpr hpv)
      have hapv : a ≠ pv := fun heq => hanot (by simp [heq ▸ hpv_mem])
      rw [hpv] at hih
      rw [List.getLast?_cons_cons, ← hpre', hpv]
      rw [if_neg (by simp : ¬(a :: pre' = []))]
      rw [List.cons_append]
      have hnode : ((h.setNext pv (nextOf h t)).free t) a = some nd := by
        rw [Heap.free_ne _ hat, Heap.setNext_ne _ _ hapv]
        exact hha
      exact .cons hnode hih

theorem remove_not_mem {m : Mem} {l : SshList} {addrs : List Nat} (hw : Wf m l addrs)
    {t : Nat} (ht : t ∉ addrs) : ssh_list_remove m l t = (l, m) := by
  have hlen : addrs.length < m.fresh + 1 := by
    have := length_le_fresh hw.nodup hw.bound
    omega
  unfold ssh_list_remove
  rw [scan_not_mem hw.chain ht hlen]

theorem remove_found {m : Mem} {l : SshList} {pre post : List Nat} {t : Nat}
    (hw : Wf m l (pre ++ t :: post)) :
    ssh_list_remove m l t =
      (⟨(if pre = [] then nextOf m.heap t else l.root),
        (if post = [] then pre.getLast? else l.end_)⟩,
       ⟨(match pre.getLast? with
          | none => m.heap
          | some pv => m.heap.setNext pv (nextOf m.heap t)).free t, m.fresh⟩) ∧
    Wf (ssh_list_remove m l t).2 (ssh_list_remove m l t).1 (pre ++ post) ∧
    ∀ a ∈ pre ++ post, dataOf (ssh_list_remove m l t).2.heap a = dataOf m.heap a := by
  have hnd := hw.nodup
  rw [List.nodup_append] at hnd
  obtain ⟨hnd_pre, hnd_tpost, hdisj⟩ := hnd
  have ht_pre : t ∉ pre := fun hm => hdisj hm (by simp)
  obtain ⟨ht_post, hnd_post⟩ := List.nodup_cons.mp hnd_tpost
  have hlen : pre.length < m.fresh + 1 := by
    have h1 := length_le_fresh hw.nodup hw.bound
    have h2 : pre.length ≤ (pre ++ t :: post).length := by
      simp [List.length_append]
    simp [List.length_append] at h1 h2 ⊢
    omega
  have hscan : sshListScan m.heap t (m.fresh + 1) none l.root = some pre.getLast? := by
    rw [scan_mem hw.chain ht_pre hlen]
    cases pre.getLast? <;> rfl
  have hroot_cond : (l.root = some t) = (pre = []) := by
    apply propext
    cases hpre : pre with
    | nil =>
      obtain ⟨hr, _⟩ := chain_cons_inv (show IsChain m.heap l.root (t :: post) by
        have := hw.chain
        rwa [hpre, List.nil_append] at this)
      simp [hr]
    | cons a pre0 =>
      obtain ⟨hr, _⟩ := chain_cons_inv (show IsChain m.heap l.root (a :: (pre0 ++ t :: post)) by
        have := hw.chain
        rwa [hpre, List.cons_append] at this)
      have hat : a ≠ t := fun heq => ht_pre (by simp [hpre, heq])
      simp [hr, hat]
  have hend_cond : (l.end_ = some t) = (post = []) := by
    apply propext
    cases hpost : post with
    | nil =>
      have : l.end_ = some t := by
        rw [hw.tail_eq, hpost, List.getLast?_append_cons, List.getLast?_singleton]
      simp [this]
    | cons b post0 =>
      have hbs : (b :: post0).getLast?.isSome := List.getLast?_isSome.mpr (by simp)
      obtain ⟨y, hy⟩ := Option.isSome_iff_exists.mp hbs
      have hyt : y ≠ t := by
        intro heq
        have hy_mem : y ∈ b :: post0 := List.mem_of_mem_getLast? (Option.mem_def.mpr hy)
        rw [heq] at hy_mem
        rw [hpost] at ht_post
        exact ht_post hy_mem
      have : l.end_ = some y := by
        rw [hw.tail_eq, hpost, List.getLast?_append_cons, List.getLast?_cons_cons, hy]
      simp [this, hyt]
  have hrem : ssh_list_remove m l t =
      (⟨(if pre = [] then nextOf m.heap t else l.root),
        (if post = [] then pre.getLast? else l.end_)⟩,
       ⟨(match pre.getLast? with
          | none => m.heap
          | some pv => m.heap.setNext pv (nextOf m.heap t)).free t, m.fresh⟩) := by
    unfold ssh_list_remove
    rw [hscan]
    simp only [hroot_cond, hend_cond]
  refine ⟨hrem, ?_, ?_⟩
  · rw [hrem]
    refine ⟨?_, ?_, ?_, ?_⟩
    · have := chain_unlink hw.chain hw.nodup
      cases hpre : pre with
      | nil =>
        rw [hpre] at this
        simpa using this
      | cons a pre0 =>
        rw [hpre] at this
        rw [if_neg (by simp)] at this ⊢
        have hr : l.root = some a := by
          obtain ⟨hr, _⟩ := chain_cons_inv (show IsChain m.heap l.root (a :: (pre0 ++ t :: post)) by
            have := hw.chain
            rwa [hpre, List.cons_append] at this)
          exact hr
        rw [hr]
        rw [hr] at this
        exact this
    · exact (((List.sublist_cons_self t post).append_left pre).nodup) hw.nodup
    · show (if post = [] then pre.getLast? else l.end_) = (pre ++ post).getLast?
      cases hpost : post with
      | nil => simp
      | cons b post0 =>
        rw [if_neg (by simp)]
        rw [hw.tail_eq, hpost]
        rw [List.getLast?_append_cons, List.getLast?_append_cons, List.getLast?_cons_cons]
    · intro a ha
      show a < m.fresh
      refine hw.bound a ?_
      rcases List.mem_append.mp ha with ha | ha
      · exact List.mem_append.mpr (Or.inl ha)
      · exact List.mem_append.mpr (Or.inr (by simp [ha]))
  · intro a ha
    rw [hrem]
    have hat : a ≠ t := by
      intro heq
      subst heq
      rcases List.mem_append.mp ha with ha | ha
      · exact ht_pre ha
      · exact ht_post ha
    show dataOf ((match pre.getLast? with
        | none => m.heap
        | some pv => m.heap.setNext pv (nextOf m.heap t)).free t) a = dataOf m.heap a
    rw [dataOf_congr (Heap.free_ne _ hat)]
    cases pre.getLast? with
    | none => rfl
    | some pv => exact dataOf_setNext _ _ _ _

/-! ## `_ssh_list_get_head` -/

theorem pop_empty {m : Mem} {l : SshList} (hroot : l.root = none) :
    _ssh_list_get_head m l = (none, l, m) := by
  unfold _ssh_list_get_head
  rw [hroot]

theorem pop_cons {m : Mem} {l : SshList} {a : Nat} {rest : List Nat}
    (hw : Wf m l (a :: rest)) :
    (_ssh_list_get_head m l).1 = dataOf m.heap a ∧
    Wf (_ssh_list_get_head m l).2.2 (_ssh_list_get_head m l).2.1 rest ∧
    ∀ b ∈ rest, dataOf (_ssh_list_get_head m l).2.2.heap b = dataOf m.heap b := by
  obtain ⟨hroot, nd, hha, hrest⟩ := chain_cons_inv hw.chain
  have hanot : a ∉ rest := (List.nodup_cons.mp hw.nodup).1
  have hpop : _ssh_list_get_head m l =
      (dataOf m.heap a,
        ⟨nextOf m.heap a, if l.end_ = some a then none else l.end_⟩,
        ⟨m.heap.free a, m.fresh⟩) := by
    unfold _ssh_list_get_head
    rw [hroot]
  rw [hpop]
  refine ⟨rfl, ?_, ?_⟩
  · refine ⟨?_, hw.nodup.of_cons, ?_, ?_⟩
    · show IsChain (m.heap.free a) (nextOf m.heap a) rest
      rw [nextOf_eq hha]
      refine chain_frame hrest ?_
      intro b hb
      exact Heap.free_ne _ (fun heq => hanot (heq ▸ hb))
    · show (if l.end_ = some a then none else l.end_) = rest.getLast?
      cases hrest' : rest with
      | nil =>
        have : l.end_ = some a := by
          rw [hw.tail_eq, hrest', List.getLast?_singleton]
        simp [this]
      | cons b rest0 =>
        have hbs : (b :: rest0).getLast?.isSome := List.getLast?_isSome.mpr (by simp)
        obtain ⟨y, hy⟩ := Option.isSome_iff_exists.mp hbs
        have hy_mem : y ∈ b :: rest0 := List.mem_of_mem_getLast? (Option.mem_def.mpr hy)
        have hya : y ≠ a := by
          intro heq
          rw [hrest'] at hanot
          exact hanot (heq ▸ hy_mem)
        have hend : l.end_ = some y := by
          rw [hw.tail_eq, hrest', List.getLast?_cons_cons, hy]
        rw [hend, hy, if_neg (by simp [hya])]
    · intro b hb
      show b < m.fresh
      exact hw.bound b (by simp [hb])
  · intro b hb
    exact dataOf_congr (Heap.free_ne _ (fun heq => hanot (heq ▸ hb)))

/-! ## Sequences of adds -/

theorem addAll_wf :
    ∀ (ds : List (Option Nat)) (m : Mem) (l : SshList) (addrs : List Nat), Wf m l addrs →
      ∃ addrs', Wf (addAll m l ds).2 (addAll m l ds).1 (addrs ++ addrs') ∧
        (addrs ++ addrs').map (dataOf (addAll m l ds).2.heap) =
          addrs.map (dataOf m.heap) ++ ds := by
  intro ds
  induction ds with
  | nil =>
    intro m l addrs hw
    exact ⟨[], by simpa [addAll] using hw, by simp [addAll]⟩
  | cons d ds ih =>
    intro m l addrs hw
    obtain ⟨-, hw1, hpres, hdf, -, -, -, -⟩ := add_wf hw d
    obtain ⟨addrs', hw2, hmap⟩ := ih _ _ _ hw1
    refine ⟨m.fresh :: addrs', ?_, ?_⟩
    · have : addrs ++ m.fresh :: addrs' = (addrs ++ [m.fresh]) ++ addrs' := by simp
      rw [this]
      simpa [addAll] using hw2
    · have hstep : (addrs ++ [m.fresh]).map
          (dataOf (ssh_list_add m l d true).2.2.heap) =
          addrs.map (dataOf m.heap) ++ [d] := by
        rw [List.map_append]
        congr 1
        · exact List.map_congr_left hpres
        · simp [hdf]
      have hassoc : addrs ++ m.fresh :: addrs' = (addrs ++ [m.fresh]) ++ addrs' := by simp
      rw [hassoc]
      have := hmap
      rw [hstep] at this
      simpa [addAll] using this

/-- Claim C1: for every sequence of successful `ssh_list_add` calls on a
list created by `ssh_list_new`, traversing from `ssh_list_get_iterator`
by following `next` links yields exactly the added data references, in
exactly the order they were added. -/
theorem ssh_list_insertion_order (m0 : Mem) (ds : List (Option Nat)) :
    traverseData (addAll m0 ssh_list_new ds).2.heap ds.length
      (ssh_list_get_iterator (addAll m0 ssh_list_new ds).1) = ds := by
  obtain ⟨addrs', hw, hmap⟩ := addAll_wf ds m0 ssh_list_new [] (wf_empty m0)
  rw [List.nil_append] at hw hmap
  have hlen : addrs'.length = ds.length := by
    have := congrArg List.length hmap
    simpa using this
  have htrav := traverse_of_chain hw.chain (le_of_eq hlen)
  show traverseData (addAll m0 ssh_list_new ds).2.heap ds.length
      (addAll m0 ssh_list_new ds).1.root = ds
  rw [htrav]
  simpa using hmap

/-- Claim C5: for every list and every iterator value that identifies no
node in the list's chain, `ssh_list_remove` leaves the list and the
memory completely unchanged and returns without signalling any error. -/
theorem ssh_list_remove_not_found_noop (m : Mem) (l : SshList) (addrs : List Nat)
    (hw : Wf m l addrs) (t : Nat) (ht : t ∉ addrs) :
    ssh_list_remove m l t = (l, m) :=
  remove_not_mem hw ht

theorem ssh_list_remove_not_found_noop_witness :
    ssh_list_remove ⟨fun _ => none, 0⟩ ⟨none, none⟩ 5 =
      (⟨none, none⟩, ⟨fun _ => none, 0⟩) :=
  ssh_list_remove_not_found_noop ⟨fun _ => none, 0⟩ ⟨none, none⟩ []
    ⟨.nil, List.nodup_nil, rfl, by simp⟩ 5 (by simp)

/-- Claim C6: if node allocation fails during `ssh_list_add`, the call
returns `SSH_ERROR` and the list and memory are left in their previous
state, with head, tail, and the whole chain unmodified. -/
theorem ssh_list_add_alloc_failure (m : Mem) (l : SshList) (d : Option Nat) :
    ssh_list_add m l d false = (SSH_ERROR, l, m) := rfl

/-- Claim C4: every operation (`ssh_list_add`, `ssh_list_remove`,
`_ssh_list_get_head`) preserves the list invariant: the chain from the
head is duplicate-free (acyclic), terminates exactly at the tail, and in
particular the head is absent if and only if the tail is absent. -/
theorem ssh_list_ops_preserve_invariant (m : Mem) (l : SshList)
    (hinv : Invariant m l) (d : Option Nat) (ok : Bool) (t : Nat) :
    Invariant (ssh_list_add m l d ok).2.2 (ssh_list_add m l d ok).2.1 ∧
    Invariant (ssh_list_remove m l t).2 (ssh_list_remove m l t).1 ∧
    Invariant (_ssh_list_get_head m l).2.2 (_ssh_list_get_head m l).2.1 := by
  obtain ⟨addrs, hw⟩ := hinv
  refine ⟨?_, ?_, ?_⟩
  · cases ok with
    | true => exact ⟨addrs ++ [m.fresh], (add_wf hw d).2.1⟩
    | false => exact ⟨addrs, hw⟩
  · by_cases ht : t ∈ addrs
    · obtain ⟨pre, post, hsplit⟩ := List.append_of_mem ht
      subst hsplit
      exact ⟨pre ++ post, (remove_found hw).2.1⟩
    · rw [remove_not_mem hw ht]
      exact ⟨addrs, hw⟩
  · cases addrs with
    | nil =>
      rw [pop_empty (chain_nil_inv hw.chain)]
      exact ⟨[], hw⟩
    | cons a rest => exact ⟨rest, (pop_cons hw).2.1⟩

theorem ssh_list_ops_preserve_invariant_witness :
    Invariant (ssh_list_add ⟨fun _ => none, 0⟩ ⟨none, none⟩ (some 7) true).2.2
      (ssh_list_add ⟨fun _ => none, 0⟩ ⟨none, none⟩ (some 7) true).2.1 ∧
    Invariant (ssh_list_remove ⟨fun _ => none, 0⟩ ⟨none, none⟩ 3).2
      (ssh_list_remove ⟨fun _ => none, 0⟩ ⟨none, none⟩ 3).1 ∧
    Invariant (_ssh_list_get_head ⟨fun _ => none, 0⟩ ⟨none, none⟩).2.2
      (_ssh_list_get_head ⟨fun _ => none, 0⟩ ⟨none, none⟩).2.1 :=
  ssh_list_ops_preserve_invariant ⟨fun _ => none, 0⟩ ⟨none, none⟩
    ⟨[], .nil, List.nodup_nil, rfl, by simp⟩ (some 7) true 3

/-- Claim C9: `_ssh_list_get_head` returns the same absent value (NULL)
both when the list is empty and when the head node's stored data
reference is itself NULL, so a caller draining the list cannot
distinguish the two cases from the return value alone. -/
theorem ssh_list_get_head_null_ambiguity (m : Mem) (l : SshList) :
    (l.root = none → (_ssh_list_get_head m l).1 = none) ∧
    (∀ a nxt, l.root = some a → m.heap a = some ⟨nxt, none⟩ →
      (_ssh_list_get_head m l).1 = none) := by
  constructor
  · intro hroot
    rw [pop_empty hroot]
  · intro a nxt hroot hha
    unfold _ssh_list_get_head
    rw [hroot]
    show dataOf m.heap a = none
    unfold dataOf
    rw [hha]

theorem ssh_list_get_head_null_ambiguity_witness :
    (_ssh_list_get_head ⟨fun _ => none, 0⟩ ⟨none, none⟩).1 = none ∧
    (_ssh_list_get_head ⟨fun x => if x = 0 then some ⟨none, none⟩ else none, 1⟩
      ⟨some 0, some 0⟩).1 = none :=
  ⟨(ssh_list_get_head_null_ambiguity ⟨fun _ => none, 0⟩ ⟨none, none⟩).1 rfl,
   (ssh_list_get_head_null_ambiguity ⟨fun x => if x = 0 then some ⟨none, none⟩ else none, 1⟩
      ⟨some 0, some 0⟩).2 0 none rfl (by simp)⟩

/-- Claim C7: for every well-formed list state, performing a successful
`ssh_list_add` of an element and then `ssh_list_remove` of the node just
created yields a list observably identical (same sequence of stored data
references, same head and tail) to the list before the add. -/
theorem ssh_list_add_remove_roundtrip (m : Mem) (l : SshList) (addrs : List Nat)
    (hw : Wf m l addrs) (d : Option Nat) :
    (ssh_list_remove (ssh_list_add m l d true).2.2 (ssh_list_add m l d true).2.1
        m.fresh).1.root = l.root ∧
    (ssh_list_remove (ssh_list_add m l d true).2.2 (ssh_list_add m l d true).2.1
        m.fresh).1.end_ = l.end_ ∧
    ∀ fuel, addrs.length ≤ fuel →
      traverseData (ssh_list_remove (ssh_list_add m l d true).2.2
          (ssh_list_add m l d true).2.1 m.fresh).2.heap fuel
        (ssh_list_remove (ssh_list_add m l d true).2.2
          (ssh_list_add m l d true).2.1 m.fresh).1.root =
      traverseData m.heap fuel l.root := by
  obtain ⟨-, hw1, hpres, -, hroot1, -, -, hnx⟩ := add_wf hw d
  obtain ⟨hrem, hw2, hpres2⟩ := @remove_found _ _ addrs [] m.fresh hw1
  rw [List.append_nil] at hw2 hpres2
  have hroot : (ssh_list_remove (ssh_list_add m l d true).2.2
      (ssh_list_add m l d true).2.1 m.fresh).1.root = l.root := by
    rw [hrem]
    show (if addrs = [] then nextOf (ssh_list_add m l d true).2.2.heap m.fresh
        else (ssh_list_add m l d true).2.1.root) = l.root
    cases haddrs : addrs with
    | nil =>
      rw [if_pos rfl, hnx]
      exact (chain_nil_inv (haddrs ▸ hw.chain)).symm
    | cons a rest =>
      rw [if_neg (by simp), hroot1, if_neg (by simp [haddrs])]
  refine ⟨hroot, ?_, ?_⟩
  · rw [hrem]
    show (if ([] : List Nat) = [] then addrs.getLast? else
        (ssh_list_add m l d true).2.1.end_) = l.end_
    rw [if_pos rfl]
    exact hw.tail_eq.symm
  · intro fuel hfuel
    rw [traverse_of_chain hw2.chain hfuel, traverse_of_chain hw.chain hfuel]
    calc addrs.map (dataOf (ssh_list_remove (ssh_list_add m l d true).2.2
          (ssh_list_add m l d true).2.1 m.fresh).2.heap)
        = addrs.map (dataOf (ssh_list_add m l d true).2.2.heap) :=
          List.map_congr_left hpres2
      _ = addrs.map (dataOf m.heap) := List.map_congr_left hpres

theorem ssh_list_add_remove_roundtrip_witness :
    (ssh_list_remove (ssh_list_add ⟨fun _ => none, 0⟩ ⟨none, none⟩ (some 9) true).2.2
        (ssh_list_add ⟨fun _ => none, 0⟩ ⟨none, none⟩ (some 9) true).2.1 0).1.root = none ∧
    (ssh_list_remove (ssh_list_add ⟨fun _ => none, 0⟩ ⟨none, none⟩ (some 9) true).2.2
        (ssh_list_add ⟨fun _ => none, 0⟩ ⟨none, none⟩ (some 9) true).2.1 0).1.end_ = none ∧
    traverseData (ssh_list_remove (ssh_list_add ⟨fun _ => none, 0⟩ ⟨none, none⟩ (some 9) true).2.2
        (ssh_list_add ⟨fun _ => none, 0⟩ ⟨none, none⟩ (some 9) true).2.1 0).2.heap 3
      (ssh_list_remove (ssh_list_add ⟨fun _ => none, 0⟩ ⟨none, none⟩ (some 9) true).2.2
        (ssh_list_add ⟨fun _ => none, 0⟩ ⟨none, none⟩ (some 9) true).2.1 0).1.root =
      traverseData (fun _ => none) 3 none := by
  have h := ssh_list_add_remove_roundtrip ⟨fun _ => none, 0⟩ ⟨none, none⟩ []
    ⟨.nil, List.nodup_nil, rfl, by simp⟩ (some 9)
  exact ⟨h.1, h.2.1, h.2.2 3 (by simp)⟩

/-- Claim C3: for a list populated by the successful calls
`add(a); add(b); add(c)`, successive calls to `_ssh_list_get_head`
return `a`, then `b`, then `c`, then the absent value, and after each
pop the relative order of the remaining elements is unchanged. -/
theorem ssh_list_pop_head_fifo (m0 : Mem) (a b c : Option Nat)
    (r1 r2 r3 : Int × SshList × Mem)
    (p1 p2 p3 p4 : Option Nat × SshList × Mem)
    (h1 : r1 = ssh_list_add m0 ssh_list_new a true)
    (h2 : r2 = ssh_list_add r1.2.2 r1.2.1 b true)
    (h3 : r3 = ssh_list_add r2.2.2 r2.2.1 c true)
    (h4 : p1 = _ssh_list_get_head r3.2.2 r3.2.1)
    (h5 : p2 = _ssh_list_get_head p1.2.2 p1.2.1)
    (h6 : p3 = _ssh_list_get_head p2.2.2 p2.2.1)
    (h7 : p4 = _ssh_list_get_head p3.2.2 p3.2.1) :
    p1.1 = a ∧ p2.1 = b ∧ p3.1 = c ∧ p4.1 = none ∧
    traverseData p1.2.2.heap 2 p1.2.1.root = [b, c] ∧
    traverseData p2.2.2.heap 1 p2.2.1.root = [c] ∧
    traverseData p3.2.2.heap 0 p3.2.1.root = [] := by
  subst h1 h2 h3 h4 h5 h6 h7
  obtain ⟨-, hW1, -, hd1, -, -, hf1, -⟩ := add_wf (wf_empty m0) a
  rw [List.nil_append] at hW1
  obtain ⟨-, hW2, hp2, hd2, -, -, hf2, -⟩ := add_wf hW1 b
  rw [hf1] at hW2 hd2 hf2
  simp only [List.cons_append, List.nil_append] at hW2
  obtain ⟨-, hW3, hp3, hd3, -, -, -, -⟩ := add_wf hW2 c
  rw [hf2] at hW3 hd3
  simp only [List.cons_append, List.nil_append] at hW3
  have hv0 : dataOf (ssh_list_add (ssh_list_add (ssh_list_add m0 ssh_list_new a true).2.2
      (ssh_list_add m0 ssh_list_new a true).2.1 b true).2.2
      (ssh_list_add (ssh_list_add m0 ssh_list_new a true).2.2
      (ssh_list_add m0 ssh_list_new a true).2.1 b true).2.1 c true).2.2.heap m0.fresh = a :=
    (hp3 _ (by simp)).trans ((hp2 _ (by simp)).trans hd1)
  have hv1 := (hp3 _ (by simp : m0.fresh + 1 ∈ [m0.fresh, m0.fresh + 1])).trans hd2
  obtain ⟨hq1, hW4, hs4⟩ := pop_cons hW3
  obtain ⟨hq2, hW5, hs5⟩ := pop_cons hW4
  obtain ⟨hq3, hW6, hs6⟩ := pop_cons hW5
  have hroot6 := chain_nil_inv hW6.chain
  have e1 := (hs4 _ (by simp : m0.fresh + 1 ∈ [m0.fresh + 1, m0.fresh + 1 + 1])).trans hv1
  have e2 := (hs4 _ (by simp : m0.fresh + 1 + 1 ∈ [m0.fresh + 1, m0.fresh + 1 + 1])).trans hd3
  have e3 := (hs5 _ (by simp : m0.fresh + 1 + 1 ∈ [m0.fresh + 1 + 1])).trans e2
  refine ⟨hq1.trans hv0, hq2.trans e1, hq3.trans e3, ?_, ?_, ?_, rfl⟩
  · rw [pop_empty hroot6]
  · rw [traverse_of_chain hW4.chain (by simp)]
    simp [e1, e2]
  · rw [traverse_of_chain hW5.chain (by simp)]
    simp [e3]

theorem ssh_list_pop_head_fifo_witness :
    let m0 : Mem := ⟨fun _ => none, 0⟩
    let r1 := ssh_list_add m0 ssh_list_new (some 1) true
    let r2 := ssh_list_add r1.2.2 r1.2.1 (some 2) true
    let r3 := ssh_list_add r2.2.2 r2.2.1 none true
    let p1 := _ssh_list_get_head r3.2.2 r3.2.1
    let p2 := _ssh_list_get_head p1.2.2 p1.2.1
    let p3 := _ssh_list_get_head p2.2.2 p2.2.1
    let p4 := _ssh_list_get_head p3.2.2 p3.2.1
    p1.1 = some 1 ∧ p2.1 = some 2 ∧ p3.1 = none ∧ p4.1 = none ∧
    traverseData p1.2.2.heap 2 p1.2.1.root = [some 2, none] ∧
    traverseData p2.2.2.heap 1 p2.2.1.root = [none] ∧
    traverseData p3.2.2.heap 0 p3.2.1.root = [] :=
  ssh_list_pop_head_fifo ⟨fun _ => none, 0⟩ (some 1) (some 2) none
    _ _ _ _ _ _ _ rfl rfl rfl rfl rfl rfl rfl

/-! ## `ntohll` -/

theorem ntohl_lt (x : Nat) : ntohl x < 2 ^ 32 := by
  unfold ntohl
  omega

theorem byte_unpack {b0 b1 b2 b3 : Nat} (h0 : b0 < 256) (h1 : b1 < 256)
    (h2 : b2 < 256) (h3 : b3 < 256) :
    (b0 * 2 ^ 24 + b1 * 2 ^ 16 + b2 * 2 ^ 8 + b3) % 256 = b3 ∧
    (b0 * 2 ^ 24 + b1 * 2 ^ 16 + b2 * 2 ^ 8 + b3) / 2 ^ 8 % 256 = b2 ∧
    (b0 * 2 ^ 24 + b1 * 2 ^ 16 + b2 * 2 ^ 8 + b3) / 2 ^ 16 % 256 = b1 ∧
    (b0 * 2 ^ 24 + b1 * 2 ^ 16 + b2 * 2 ^ 8 + b3) / 2 ^ 24 % 256 = b0 := by
  refine ⟨?_, ?_, ?_, ?_⟩ <;> omega

theorem ntohl_ntohl {x : Nat} (hx : x < 2 ^ 32) : ntohl (ntohl x) = x := by
  have h0 : x % 256 < 256 := by omega
  have h1 : x / 2 ^ 8 % 256 < 256 := by omega
  have h2 : x / 2 ^ 16 % 256 < 256 := by omega
  have h3 : x / 2 ^ 24 % 256 < 256 := by omega
  obtain ⟨e3, e2, e1, e0⟩ := byte_unpack h0 h1 h2 h3
  unfold ntohl
  rw [e3, e2, e1, e0]
  clear e3 e2 e1 e0 h0 h1 h2 h3
  omega

/-- Claim C8: on a little-endian model (the non-`WORDS_BIGENDIAN`
branch), `ntohll` is an involution: for every 64-bit value `a`,
`ntohll (ntohll a)` equals `a`, because the function reverses all eight
bytes of its argument. -/
theorem ntohll_involution (a : Nat) (ha : a < 2 ^ 64) : ntohll (ntohll a) = a := by
  simp only [ntohll]
  have hlo := ntohl_lt (a % 2 ^ 32)
  have hhi := ntohl_lt (a / 2 ^ 32 % 2 ^ 32)
  have h1 : (ntohl (a % 2 ^ 32) * 2 ^ 32 + ntohl (a / 2 ^ 32 % 2 ^ 32)) % 2 ^ 32 =
      ntohl (a / 2 ^ 32 % 2 ^ 32) := by
    omega
  have h2 : (ntohl (a % 2 ^ 32) * 2 ^ 32 + ntohl (a / 2 ^ 32 % 2 ^ 32)) / 2 ^ 32 % 2 ^ 32 =
      ntohl (a % 2 ^ 32) := by
    omega
  rw [h1, h2]
  rw [ntohl_ntohl (by omega), ntohl_ntohl (by omega)]
  omega

theorem ntohll_involution_witness :
    ntohll (ntohll 81985529216486895) = 81985529216486895 :=
  ntohll_involution 81985529216486895 (by decide)

/-! ## Path decomposition lemmas

The backwards index loops are characterised through `dropWhile` on the
reversed string. -/

theorem skipWhileRev_eq (p : List Char) (pred : Char → Bool) :
    ∀ len, len ≤ p.length →
      skipWhileRev p pred len = ((p.take len).reverse.dropWhile pred).length := by
  intro len
  induction len with
  | zero =>
    intro _
    simp [skipWhileRev]
  | succ n ih =>
    intro hlen
    have hn : n < p.length := by omega
    have hget : p.getD n ' ' = p[n] := by
      simp [List.getD_eq_getElem?_getD, List.getElem?_eq_getElem hn]
    have htake : p.take (n + 1) = p.take n ++ [p[n]] := by
      rw [List.take_succ]
      simp [List.getElem?_eq_getElem hn]
    simp only [skipWhileRev, hget, htake, List.reverse_append, List.reverse_singleton,
      List.singleton_append, List.dropWhile_cons]
    by_cases hp : pred p[n]
    · rw [if_pos hp, if_pos hp]
      exact ih (by omega)
    · rw [if_neg hp, if_neg hp]
      simp [List.length_take]
      omega

theorem skipWhileRev_full (p : List Char) (pred : Char → Bool) :
    skipWhileRev p pred p.length = (p.reverse.dropWhile pred).length := by
  have h := skipWhileRev_eq p pred p.length (le_refl _)
  rwa [List.take_length] at h

theorem reverse_take_of_suffix {p s : List Char} (h : s <:+ p.reverse) :
    (p.take s.length).reverse = s := by
  obtain ⟨t, ht⟩ := h
  have hp : p = s.reverse ++ t.reverse := by
    have h2 := congrArg List.reverse ht
    simpa [List.reverse_append] using h2.symm
  rw [hp, List.take_left' (by simp : s.reverse.length = s.length), List.reverse_reverse]

theorem skipWhileRev_of_suffix {p s : List Char} (h : s <:+ p.reverse)
    (pred : Char → Bool) :
    skipWhileRev p pred s.length = (s.dropWhile pred).length := by
  have hlen : s.length ≤ p.length := by
    have h2 := h.length_le
    simpa using h2
  rw [skipWhileRev_eq p pred s.length hlen, reverse_take_of_suffix h]

theorem dropWhile_append_nil {pred : Char → Bool} {xs ys : List Char}
    (h : xs.dropWhile pred = []) :
    (xs ++ ys).dropWhile pred = ys.dropWhile pred := by
  induction xs with
  | nil => simp
  | cons x xs ih =>
    by_cases hx : pred x
    · rw [List.dropWhile_cons, if_pos hx] at h
      rw [List.cons_append, List.dropWhile_cons, if_pos hx]
      exact ih h
    · rw [List.dropWhile_cons, if_neg hx] at h
      exact absurd h (by simp)

theorem dropWhile_append_pos {pred : Char → Bool} {xs ys : List Char}
    (h : xs.dropWhile pred ≠ []) :
    (xs ++ ys).dropWhile pred = xs.dropWhile pred ++ ys := by
  induction xs with
  | nil => simp at h
  | cons x xs ih =>
    by_cases hx : pred x
    · rw [List.dropWhile_cons, if_pos hx] at h
      rw [List.cons_append, List.dropWhile_cons, if_pos hx, List.dropWhile_cons, if_pos hx]
      exact ih h
    · rw [List.cons_append, List.dropWhile_cons, if_neg hx, List.dropWhile_cons, if_neg hx,
        List.cons_append]

theorem dropWhile_replicate_slash (n : Nat) :
    (List.replicate n '/').dropWhile (fun c => c = '/') = [] := by
  induction n with
  | zero => rfl
  | succ m ih => simp [List.replicate_succ, List.dropWhile_cons, ih]

theorem ssh_dirname_eq (p : List Char) (hp : p ≠ []) :
    ssh_dirname (some p) =
      (if p.reverse.dropWhile (fun c => c = '/') = [] then ['/']
       else if (p.reverse.dropWhile (fun c => c = '/')).dropWhile
           (fun c => c ≠ '/') = [] then ['.']
       else if ((p.reverse.dropWhile (fun c => c = '/')).dropWhile
           (fun c => c ≠ '/')).length = 1 then ['/']
       else (((p.reverse.dropWhile (fun c => c = '/')).dropWhile
           (fun c => c ≠ '/')).dropWhile (fun c => c = '/')).reverse) := by
  have hs1 : p.reverse.dropWhile (fun c => c = '/') <:+ p.reverse :=
    List.dropWhile_suffix _
  have hs2 : (p.reverse.dropWhile (fun c => c = '/')).dropWhile
      (fun c => c ≠ '/') <:+ p.reverse :=
    (List.dropWhile_suffix _).trans hs1
  have hs3 : ((p.reverse.dropWhile (fun c => c = '/')).dropWhile
      (fun c => c ≠ '/')).dropWhile (fun c => c = '/') <:+ p.reverse :=
    (List.dropWhile_suffix _).trans hs2
  simp only [ssh_dirname]
  rw [if_neg hp]
  rw [skipWhileRev_full p (fun c => c = '/')]
  by_cases h1 : p.reverse.dropWhile (fun c => c = '/') = []
  · rw [if_pos (List.length_eq_zero.mpr h1), if_pos h1]
  · rw [if_neg (fun hh => h1 (List.length_eq_zero.mp hh)), if_neg h1]
    rw [skipWhileRev_of_suffix hs1 (fun c => c ≠ '/')]
    by_cases h2 : (p.reverse.dropWhile (fun c => c = '/')).dropWhile
        (fun c => c ≠ '/') = []
    · rw [if_pos (List.length_eq_zero.mpr h2), if_pos h2]
    · rw [if_neg (fun hh => h2 (List.length_eq_zero.mp hh)), if_neg h2]
      by_cases h3 : ((p.reverse.dropWhile (fun c => c = '/')).dropWhile
          (fun c => c ≠ '/')).length = 1
      · rw [if_pos h3, if_pos h3]
      · rw [if_neg h3, if_neg h3]
        rw [skipWhileRev_of_suffix hs2 (fun c => c = '/')]
        rw [← List.reverse_reverse (List.take _ p), reverse_take_of_suffix hs3]

theorem dirname_slashrun_eq (d b : List Char) (k : Nat) (hd : d ≠ [])
    (hb : '/' ∉ b) (hbne : b ≠ []) :
    ssh_dirname (some (d ++ List.replicate (k + 1) '/' ++ b)) =
      (d.reverse.dropWhile (fun c => c = '/')).reverse := by
  have hpne : d ++ List.replicate (k + 1) '/' ++ b ≠ [] := by simp [hd]
  rw [ssh_dirname_eq _ hpne]
  have hrev : (d ++ List.replicate (k + 1) '/' ++ b).reverse =
      b.reverse ++ (List.replicate (k + 1) '/' ++ d.reverse) := by
    simp [List.reverse_append, List.reverse_replicate, List.append_assoc]
  rw [hrev]
  have hbrev_ne : b.reverse ≠ [] := by simpa using hbne
  obtain ⟨x, xs, hx⟩ := List.exists_cons_of_ne_nil hbrev_ne
  have hxb : x ∈ b := List.mem_reverse.mp (hx ▸ List.mem_cons_self x xs)
  have hxslash : ¬(x = '/') := fun heq => hb (heq ▸ hxb)
  have hd1 : b.reverse.dropWhile (fun c => c = '/') = b.reverse := by
    rw [hx, List.dropWhile_cons, if_neg (by simpa using hxslash)]
  have hr1 : (b.reverse ++ (List.replicate (k + 1) '/' ++ d.reverse)).dropWhile
      (fun c => c = '/') = b.reverse ++ (List.replicate (k + 1) '/' ++ d.reverse) := by
    rw [dropWhile_append_pos (by rw [hd1]; exact hbrev_ne), hd1]
  rw [hr1]
  rw [if_neg (by simp [hx])]
  have hd2 : b.reverse.dropWhile (fun c => c ≠ '/') = [] := by
    rw [List.dropWhile_eq_nil_iff]
    intro c hc
    simp only [ne_eq, decide_not, Bool.not_eq_true', decide_eq_false_iff_not]
    exact fun heq => hb (heq ▸ List.mem_reverse.mp hc)
  have hr2 : (b.reverse ++ (List.replicate (k + 1) '/' ++ d.reverse)).dropWhile
      (fun c => c ≠ '/') = List.replicate (k + 1) '/' ++ d.reverse := by
    rw [dropWhile_append_nil hd2]
    rw [List.replicate_succ, List.cons_append, List.dropWhile_cons, if_neg (by simp)]
  rw [hr2]
  rw [if_neg (by simp [List.replicate_succ])]
  have hlen2 : (List.replicate (k + 1) '/' ++ d.reverse).length ≠ 1 := by
    have hdl : d.length ≠ 0 := fun h0 => hd (List.length_eq_zero.mp h0)
    simp [List.length_append, List.length_replicate]
    omega
  rw [if_neg hlen2]
  rw [dropWhile_append_nil (dropWhile_replicate_slash (k + 1))]

theorem dirname_trailing_eq (d : List Char) (k : Nat) (hd : d ≠ [])
    (hds : ∃ ch ∈ d, ch ≠ '/') :
    ssh_dirname (some (d ++ List.replicate (k + 1) '/')) =
      (if (d.reverse.dropWhile (fun c => c = '/')).dropWhile
          (fun c => c ≠ '/') = [] then ['.']
       else if ((d.reverse.dropWhile (fun c => c = '/')).dropWhile
          (fun c => c ≠ '/')).length = 1 then ['/']
       else (((d.reverse.dropWhile (fun c => c = '/')).dropWhile
          (fun c => c ≠ '/')).dropWhile (fun c => c = '/')).reverse) := by
  have hpne : d ++ List.replicate (k + 1) '/' ≠ [] := by simp [hd]
  rw [ssh_dirname_eq _ hpne]
  have hrev : (d ++ List.replicate (k + 1) '/').reverse =
      List.replicate (k + 1) '/' ++ d.reverse := by
    simp [List.reverse_append, List.reverse_replicate]
  rw [hrev]
  rw [dropWhile_append_nil (dropWhile_replicate_slash (k + 1))]
  have hr1ne : d.reverse.dropWhile (fun c => c = '/') ≠ [] := by
    rw [Ne, List.dropWhile_eq_nil_iff]
    intro hall
    obtain ⟨ch, hch, hchs⟩ := hds
    have h2 := hall ch (List.mem_reverse.mpr hch)
    simp at h2
    exact hchs h2
  rw [if_neg hr1ne]

/-- Claim C10: `ssh_dirname` strips all consecutive '/' characters
separating the directory component from the final component: for a path
`d ++ "/"*(k+1) ++ b` with `b` slash-free and `d` non-empty and not all
slashes, the result is the same as for the single-slash path
`d ++ "/" ++ b`; in particular `ssh_dirname "a///b" = "a"`, not
`"a//"`. -/
theorem ssh_dirname_collapses_slashes (d b : List Char) (k : Nat) (hd : d ≠ [])
    (hds : ∃ ch ∈ d, ch ≠ '/') (hb : '/' ∉ b) :
    (ssh_dirname (some (d ++ List.replicate (k + 1) '/' ++ b)) =
       ssh_dirname (some (d ++ '/' :: b))) ∧
    ssh_dirname (some ['a', '/', '/', '/', 'b']) = ['a'] := by
  constructor
  · have hone : d ++ '/' :: b = d ++ List.replicate (0 + 1) '/' ++ b := by
      simp [List.replicate_succ]
    rw [hone]
    cases hbe : b with
    | nil =>
      simp only [List.append_nil]
      rw [dirname_trailing_eq d k hd hds, dirname_trailing_eq d 0 hd hds]
    | cons x xs =>
      rw [dirname_slashrun_eq d (x :: xs) k hd (hbe ▸ hb) (by simp),
          dirname_slashrun_eq d (x :: xs) 0 hd (hbe ▸ hb) (by simp)]
  · decide

theorem ssh_dirname_collapses_slashes_witness :
    (ssh_dirname (some (['a'] ++ List.replicate (2 + 1) '/' ++ ['b'])) =
       ssh_dirname (some (['a'] ++ '/' :: ['b']))) ∧
    ssh_dirname (some ['a', '/', '/', '/', 'b']) = ['a'] :=
  ssh_dirname_collapses_slashes ['a'] ['b'] 2 (by simp)
    ⟨'a', by simp, by decide⟩ (by decide)

/-- Claim C2 (bug evidence): contrary to the POSIX basename contract and
to the function's own documentation comment ("Trailing '/' characters
are not counted as part of the pathname"), `ssh_basename "abc/"`
returns the original string `"abc/"` (the `len == 0` branch after the
second loop returns `strdup(path)`), not `"abc"`. -/
theorem ssh_basename_trailing_slash_bug :
    ssh_basename (some ['a', 'b', 'c', '/']) = ['a', 'b', 'c', '/'] ∧
    ssh_basename (some ['a', 'b', 'c', '/']) ≠ ['a', 'b', 'c'] := by
  decide

end Libssh
